import Mathlib

/-!
Verification of the msh lexical front end (src/lexer.rs) and the environment
store (src/environment.rs) against the repository's specification.

The lexer is embedded as an explicit state machine.  Mutable fields of the
Rust struct Lexer become fields of LexState; the iterator method next becomes
a function from states to an optional token paired with the successor state.
The two runtime failure modes of the Rust code are made explicit in an error
type: the assertion inside push_char (the one-slot pushback must be empty)
and a decrement of the line counter below its initial value 1 (usize
underflow in Rust).  Recursion is implemented with an explicit fuel argument
so that every definition evaluates by kernel reduction; theorems below prove
that the chosen fuel is always sufficient, which is exactly the termination
part of the specification's totality claim.
-/

deriving instance DecidableEq for Except

namespace Msh

/-- Token kinds produced by the lexer (lexer.rs, enum Kind). -/
inductive Kind where
  | word (text : String)
  | leftBrace
  | rightBrace
  | semi
deriving DecidableEq

/-- A token: a kind together with its 1-based source line
(lexer.rs, struct Token). -/
structure Token where
  kind : Kind
  line : Nat
deriving DecidableEq

/-- State of the lexer (lexer.rs, struct Lexer): remaining input characters,
current line counter, the one-character pushback slot, the one-token
lookahead slot, and the kind of the most recently emitted token. -/
structure LexState where
  src : List Char
  line : Nat
  peek : Option Char
  next : Option Kind
  last : Option Kind
deriving DecidableEq

/-- Runtime failures of the embedded code: the assertion in push_char, a line
counter decrement below its initial value, and fuel exhaustion (which the
totality theorem proves unreachable for the fuel actually supplied). -/
inductive LexErr where
  | assertPeek
  | lineUnder
  | outOfFuel
deriving DecidableEq

/-- The function is_line_terminator of lexer.rs. -/
def isLineTerminator (c : Char) : Bool :=
  c == '\n' || c == ';'

/-- Rust char::is_whitespace, i.e. the Unicode White_Space property, with the
member code points spelled out (lexer.rs calls c.is_whitespace()). -/
def isRustWhitespace (c : Char) : Bool :=
  decide (c.toNat = 0x09 ∨ c.toNat = 0x0A ∨ c.toNat = 0x0B ∨ c.toNat = 0x0C ∨
    c.toNat = 0x0D ∨ c.toNat = 0x20 ∨ c.toNat = 0x85 ∨ c.toNat = 0xA0 ∨
    c.toNat = 0x1680 ∨ (0x2000 ≤ c.toNat ∧ c.toNat ≤ 0x200A) ∨
    c.toNat = 0x2028 ∨ c.toNat = 0x2029 ∨ c.toNat = 0x202F ∨
    c.toNat = 0x205F ∨ c.toNat = 0x3000)

/-- The pending input of a state: the pushback slot followed by the
remaining source characters. -/
def chars (s : LexState) : List Char :=
  s.peek.toList ++ s.src

/-- Number of pending input characters. -/
def remaining (s : LexState) : Nat :=
  (chars s).length

/-- The method Lexer::next_char: take the pushback slot if occupied, else the
next source character; increment the line counter on a newline. -/
def nextChar (s : LexState) : Option Char × LexState :=
  match s.peek, s.src with
  | some c, _ =>
    (some c, { s with peek := none,
                      line := if c = '\n' then s.line + 1 else s.line })
  | none, [] => (none, s)
  | none, c :: rest =>
    (some c, { s with src := rest,
                      line := if c = '\n' then s.line + 1 else s.line })

/-- The method Lexer::push_char.  The Rust code asserts that the pushback
slot is empty and decrements the line counter when pushing back a newline;
both an assertion failure and a decrement below the initial value 1 are
modelled as errors (never reached, as proved below). -/
def pushChar (c : Char) (s : LexState) : Except LexErr LexState :=
  if s.peek.isSome then .error .assertPeek
  else if c = '\n' then
    if s.line ≤ 1 then .error .lineUnder
    else .ok { s with line := s.line - 1, peek := some c }
  else .ok { s with peek := some c }

/-- The method Lexer::emit: record the kind as most recently emitted and
build the token, its line defaulting to the current line. -/
def emit (kind : Kind) (line? : Option Nat) (s : LexState) : Token × LexState :=
  ({ kind := kind, line := line?.getD s.line }, { s with last := some kind })

/-- Loop body of Lexer::consume_line_terminators, with fuel. -/
def consumeLTGo : Nat → Nat → LexState → Except LexErr (Nat × LexState)
  | 0, _, _ => .error .outOfFuel
  | fuel + 1, line, s =>
    match nextChar s with
    | (none, s1) => .ok (line, s1)
    | (some c, s1) =>
      if isLineTerminator c then consumeLTGo fuel line s1
      else
        match pushChar c s1 with
        | .error e => .error e
        | .ok s2 => .ok (line, s2)

/-- The method Lexer::consume_line_terminators: record the current line, then
consume characters as long as they are line terminators, pushing the first
non-terminator back; return the recorded line. -/
def consumeLineTerminators (s : LexState) : Except LexErr (Nat × LexState) :=
  consumeLTGo (remaining s + 1) s.line s

/-- The token-producing loop of Iterator::next for Lexer (lexer.rs lines
64-122), with fuel.  The recursive self.next() call in the
leading-delimiter branch is inlined: its lookahead-slot check appears as the
inner match on s2.next followed by a recursive call with an empty buffer. -/
def lexLoopF : Nat → List Char → LexState → Except LexErr (Option Token × LexState)
  | 0, _, _ => .error .outOfFuel
  | fuel + 1, buf, s =>
    match nextChar s with
    | (some c, s1) =>
      if buf = [] ∧ c = '{' then
        match consumeLineTerminators s1 with
        | .error e => .error e
        | .ok (line, s2) =>
          let r := emit Kind.leftBrace (some line) s2
          .ok (some r.1, r.2)
      else if buf = [] ∧ c = '}' then
        if s1.last ≠ some Kind.semi then
          let r := emit Kind.semi none { s1 with next := some Kind.rightBrace }
          .ok (some r.1, r.2)
        else
          let r := emit Kind.rightBrace none s1
          .ok (some r.1, r.2)
      else if isLineTerminator c then
        if buf = [] then
          match consumeLineTerminators s1 with
          | .error e => .error e
          | .ok (line, s2) =>
            if s2.last = none then
              match s2.next with
              | some kind =>
                let r := emit kind none { s2 with next := none }
                .ok (some r.1, r.2)
              | none => lexLoopF fuel [] s2
            else
              let r := emit Kind.semi (some (line - 1)) s2
              .ok (some r.1, r.2)
        else
          match pushChar c s1 with
          | .error e => .error e
          | .ok s2 =>
            let r := emit (Kind.word (String.mk buf)) none s2
            .ok (some r.1, r.2)
      else if isRustWhitespace c then
        if buf = [] then lexLoopF fuel buf s1
        else
          let r := emit (Kind.word (String.mk buf)) none s1
          .ok (some r.1, r.2)
      else lexLoopF fuel (buf ++ [c]) s1
    | (none, s1) =>
      if buf = [] then
        if s1.last = some Kind.semi then .ok (none, s1)
        else
          let r := emit Kind.semi none s1
          .ok (some r.1, r.2)
      else
        let r := emit (Kind.word (String.mk buf)) none s1
        .ok (some r.1, r.2)

/-- One pull of Iterator::next for Lexer: emit a pending lookahead token if
present, otherwise run the token-producing loop with an empty word buffer. -/
def lexNext (s : LexState) : Except LexErr (Option Token × LexState) :=
  match s.next with
  | some kind =>
    let r := emit kind none { s with next := none }
    .ok (some r.1, r.2)
  | none => lexLoopF (remaining s + 1) [] s

/-- Weight of the lookahead slot, for the termination measure. -/
def slotWeight (s : LexState) : Nat :=
  if s.next.isSome then 2 else 0

/-- Weight of the last-emitted kind, for the termination measure. -/
def lastWeight (s : LexState) : Nat :=
  if s.last = some Kind.semi then 0 else 1

/-- Termination measure for repeated pulls: every pull that yields a token
strictly decreases it. -/
def M (s : LexState) : Nat :=
  3 * remaining s + slotWeight s + lastWeight s

/-- Collect tokens by pulling until the lexer reports end of stream,
with fuel. -/
def tokensFromF : Nat → LexState → Except LexErr (List Token)
  | 0, _ => .error .outOfFuel
  | fuel + 1, s =>
    match lexNext s with
    | .error e => .error e
    | .ok (none, _) => .ok []
    | .ok (some t, s') =>
      match tokensFromF fuel s' with
      | .error e => .error e
      | .ok ts => .ok (t :: ts)

/-- The constructor Lexer::new: fresh state over an input text. -/
def initLexer (input : String) : LexState :=
  { src := input.toList, line := 1, peek := none, next := none, last := none }

/-- The full token stream of an input text. -/
def tokensOf (input : String) : Except LexErr (List Token) :=
  tokensFromF (M (initLexer input) + 1) (initLexer input)

/-- The kinds of a token stream, for claims that ignore line numbers. -/
def kindsOf (input : String) : Except LexErr (List Kind) :=
  (tokensOf input).map (List.map Token.kind)

/-- Regression: the test command of lexer.rs. -/
theorem test_command :
    kindsOf "cat /etc/hosts /etc/passwd" =
      .ok [Kind.word "cat", Kind.word "/etc/hosts", Kind.word "/etc/passwd",
        Kind.semi] := by
  decide

/-- Regression: the test if_stmt of lexer.rs. -/
theorem test_if_stmt :
    kindsOf "if true \x7b echo truthy \x7d\n" =
      .ok [Kind.word "if", Kind.word "true", Kind.leftBrace, Kind.word "echo",
        Kind.word "truthy", Kind.semi, Kind.rightBrace, Kind.semi] := by
  decide

/-- Regression: the test empty_body of lexer.rs. -/
theorem test_empty_body :
    kindsOf "if false \x7b \x7d\n" =
      .ok [Kind.word "if", Kind.word "false", Kind.leftBrace, Kind.semi,
        Kind.rightBrace, Kind.semi] := by
  decide

/-- Regression: the test multiline_nested_if_else_stmt of lexer.rs, with the
line number of every token checked. -/
theorem test_multiline :
    tokensOf "if /bin/a \x7b\n  echo a\n\x7d else if /bin/b \x7b\n  echo b\n  echo 2\n  if true \x7b\n    exit\n  \x7d\n\x7d else \x7b\n  echo c\n\x7d\n" =
      .ok [⟨Kind.word "if", 1⟩, ⟨Kind.word "/bin/a", 1⟩, ⟨Kind.leftBrace, 1⟩,
        ⟨Kind.word "echo", 2⟩, ⟨Kind.word "a", 2⟩, ⟨Kind.semi, 2⟩,
        ⟨Kind.rightBrace, 3⟩, ⟨Kind.word "else", 3⟩, ⟨Kind.word "if", 3⟩,
        ⟨Kind.word "/bin/b", 3⟩, ⟨Kind.leftBrace, 3⟩,
        ⟨Kind.word "echo", 4⟩, ⟨Kind.word "b", 4⟩, ⟨Kind.semi, 4⟩,
        ⟨Kind.word "echo", 5⟩, ⟨Kind.word "2", 5⟩, ⟨Kind.semi, 5⟩,
        ⟨Kind.word "if", 6⟩, ⟨Kind.word "true", 6⟩, ⟨Kind.leftBrace, 6⟩,
        ⟨Kind.word "exit", 7⟩, ⟨Kind.semi, 7⟩,
        ⟨Kind.rightBrace, 8⟩, ⟨Kind.semi, 8⟩,
        ⟨Kind.rightBrace, 9⟩, ⟨Kind.word "else", 9⟩, ⟨Kind.leftBrace, 9⟩,
        ⟨Kind.word "echo", 10⟩, ⟨Kind.word "c", 10⟩, ⟨Kind.semi, 10⟩,
        ⟨Kind.rightBrace, 11⟩, ⟨Kind.semi, 11⟩] := by
  decide

/-- A non-terminator character is not a newline. -/
theorem ne_newline_of_not_terminator {c : Char} (h : isLineTerminator c = false) :
    c ≠ '\n' := by
  intro hc
  subst hc
  simp [isLineTerminator] at h

/-- Characterization of an exhausted Cursor read. -/
theorem nextChar_none {s s1 : LexState} (h : nextChar s = (none, s1)) :
    s = s1 ∧ chars s = [] := by
  cases hp : s.peek with
  | some c => simp [nextChar, hp] at h
  | none =>
    cases hs : s.src with
    | nil =>
      simp [nextChar, hp, hs] at h
      refine ⟨h, ?_⟩
      simp [chars, hp, hs]
    | cons c rest => simp [nextChar, hp, hs] at h

/-- Characterization of a successful Cursor read: one pending character is
consumed, the pushback slot of the result is empty, the lookahead slot and
last-emitted kind are untouched, and the line counter advances exactly on a
newline. -/
theorem nextChar_some {s s1 : LexState} {c : Char}
    (h : nextChar s = (some c, s1)) :
    chars s = c :: chars s1 ∧ s1.peek = none ∧
    s1.next = s.next ∧ s1.last = s.last ∧
    s1.line = (if c = '\n' then s.line + 1 else s.line) := by
  cases hp : s.peek with
  | some c0 =>
    simp [nextChar, hp] at h
    obtain ⟨rfl, rfl⟩ := h
    simp [chars, hp]
  | none =>
    cases hs : s.src with
    | nil => simp [nextChar, hp, hs] at h
    | cons c0 rest =>
      simp [nextChar, hp, hs] at h
      obtain ⟨rfl, rfl⟩ := h
      simp [chars, hp, hs]

/-- A successful read consumes exactly one pending character. -/
theorem nextChar_some_remaining {s s1 : LexState} {c : Char}
    (h : nextChar s = (some c, s1)) : remaining s = remaining s1 + 1 := by
  have := (nextChar_some h).1
  simp [remaining, this]

/-- A successful read never lowers the line counter. -/
theorem nextChar_some_line_le {s s1 : LexState} {c : Char}
    (h : nextChar s = (some c, s1)) : s.line ≤ s1.line := by
  have := (nextChar_some h).2.2.2.2
  split at this <;> omega

/-- Pushing back a non-newline character succeeds whenever the slot is empty
(the Rust assertion holds) and occupies the slot. -/
theorem pushChar_ok {c : Char} {s : LexState} (hp : s.peek = none)
    (hn : c ≠ '\n') : pushChar c s = .ok { s with peek := some c } := by
  simp [pushChar, hp, hn]

/-- Pushing back a newline succeeds whenever the slot is empty and the line
counter exceeds its initial value; the counter is decremented. -/
theorem pushChar_newline {s : LexState} (hp : s.peek = none)
    (hl : 2 ≤ s.line) :
    pushChar '\n' s = .ok { s with line := s.line - 1, peek := some '\n' } := by
  have : ¬ s.line ≤ 1 := by omega
  simp [pushChar, hp, this]

/-- Pending input after occupying an empty pushback slot. -/
theorem chars_set_peek {s : LexState} (hp : s.peek = none) (c : Char)
    (l : Nat) :
    chars { s with peek := some c, line := l } = c :: chars s := by
  simp [chars, hp]

/-- The length of a dropWhile result never exceeds the original length. -/
theorem length_dropWhile_le' (p : Char → Bool) (l : List Char) :
    (l.dropWhile p).length ≤ l.length := by
  induction l with
  | nil => simp [List.dropWhile]
  | cons a t ih =>
    by_cases hp : p a
    · simp only [List.dropWhile, hp]
      have h2 := ih
      simp only [List.length_cons]
      omega
    · simp only [List.dropWhile, hp]
      simp

/-- The head of a dropWhile result does not satisfy the predicate. -/
theorem head_dropWhile_false (p : Char → Bool) :
    ∀ (l : List Char) (c : Char), (l.dropWhile p).head? = some c →
      p c = false := by
  intro l
  induction l with
  | nil =>
    intro c h
    simp [List.dropWhile] at h
  | cons a t ih =>
    intro c h
    by_cases hp : p a
    · simp only [List.dropWhile, hp, if_pos] at h
      exact ih c h
    · simp only [List.dropWhile, hp, if_neg, Bool.false_eq_true] at h
      simp at h
      obtain ⟨rfl, -⟩ := h
      simp [hp]

/-- Full behaviour of the consume_line_terminators loop, given enough fuel:
it never fails, returns the recorded line, drops exactly the maximal run of
leading line terminators from the pending input, leaves the lookahead slot
and the last-emitted kind untouched, and never lowers the line counter. -/
theorem consumeLTGo_spec :
    ∀ (fuel line : Nat) (s : LexState), remaining s < fuel →
      ∃ s', consumeLTGo fuel line s = .ok (line, s') ∧
        chars s' = (chars s).dropWhile isLineTerminator ∧
        s'.next = s.next ∧ s'.last = s.last ∧ s.line ≤ s'.line := by
  intro fuel
  induction fuel with
  | zero =>
    intro line s h
    omega
  | succ n ih =>
    intro line s h
    rcases hnc : nextChar s with ⟨oc, s1⟩
    cases oc with
    | none =>
      obtain ⟨heq, hcs⟩ := nextChar_none hnc
      subst heq
      refine ⟨s, ?_, ?_, rfl, rfl, le_refl _⟩
      · simp [consumeLTGo, hnc]
      · simp [hcs]
    | some c =>
      obtain ⟨hchars, hpk, hnext, hlast, hline⟩ := nextChar_some hnc
      have hrem : remaining s = remaining s1 + 1 := nextChar_some_remaining hnc
      by_cases ht : isLineTerminator c
      · obtain ⟨s', h1, h2, h3, h4, h5⟩ := ih line s1 (by omega)
        refine ⟨s', ?_, ?_, ?_, ?_, ?_⟩
        · simp [consumeLTGo, hnc, ht, h1]
        · rw [hchars, List.dropWhile, ht]
          exact h2
        · rw [h3, hnext]
        · rw [h4, hlast]
        · exact le_trans (nextChar_some_line_le hnc) h5
      · have hne : c ≠ '\n' := ne_newline_of_not_terminator (by simpa using ht)
        refine ⟨{ s1 with peek := some c }, ?_, ?_, ?_, ?_, ?_⟩
        · simp [consumeLTGo, hnc, ht, pushChar_ok hpk hne]
        · have : chars { s1 with peek := some c } = c :: chars s1 := by
            simp [chars, hpk]
          rw [this, hchars, List.dropWhile]
          simp [ht]
        · simpa using hnext
        · simpa using hlast
        · have : s.line ≤ s1.line := nextChar_some_line_le hnc
          simpa using this

/-- Full behaviour of consume_line_terminators. -/
theorem consumeLT_spec (s : LexState) :
    ∃ s', consumeLineTerminators s = .ok (s.line, s') ∧
      chars s' = (chars s).dropWhile isLineTerminator ∧
      s'.next = s.next ∧ s'.last = s.last ∧ s.line ≤ s'.line ∧
      remaining s' ≤ remaining s := by
  obtain ⟨s', h1, h2, h3, h4, h5⟩ :=
    consumeLTGo_spec (remaining s + 1) s.line s (by omega)
  refine ⟨s', h1, h2, h3, h4, h5, ?_⟩
  rw [remaining, h2]
  exact le_trans (length_dropWhile_le' _ _) (le_refl _)

/-- Pushing back the character just read undoes the read completely on the
pending input and the line counter, and the push never fails. -/
theorem pushChar_after_read {s s1 : LexState} {c : Char}
    (hnc : nextChar s = (some c, s1)) (hline : 1 ≤ s.line) :
    ∃ s2, pushChar c s1 = .ok s2 ∧ chars s2 = chars s ∧ s2.next = s.next ∧
      s2.last = s.last ∧ s2.line = s.line := by
  obtain ⟨hchars, hpk, hnext1, hlast1, hline1⟩ := nextChar_some hnc
  by_cases hc : c = '\n'
  · subst hc
    have h2 : 2 ≤ s1.line := by
      rw [hline1]
      simp
      omega
    refine ⟨_, pushChar_newline hpk h2, ?_, ?_, ?_, ?_⟩
    · rw [hchars]
      simp [chars, hpk]
    · exact hnext1
    · exact hlast1
    · show s1.line - 1 = s.line
      rw [hline1]
      simp
  · refine ⟨_, pushChar_ok hpk hc, ?_, ?_, ?_, ?_⟩
    · rw [hchars]
      simp [chars, hpk]
    · exact hnext1
    · exact hlast1
    · show s1.line = s.line
      rw [hline1]
      simp [hc]

/-- The last-emitted weight is at most one. -/
theorem lastWeight_le (s : LexState) : lastWeight s ≤ 1 := by
  unfold lastWeight
  split <;> omega

/-- The last-emitted weight vanishes exactly on Semi. -/
theorem lastWeight_of_semi {s : LexState} (h : s.last = some Kind.semi) :
    lastWeight s = 0 := by
  simp [lastWeight, h]

/-- The last-emitted weight is one off Semi. -/
theorem lastWeight_of_ne {s : LexState} (h : ¬ s.last = some Kind.semi) :
    lastWeight s = 1 := by
  simp [lastWeight, h]

/-- The slot weight of an empty lookahead slot. -/
theorem slotWeight_of_none {s : LexState} (h : s.next = none) :
    slotWeight s = 0 := by
  simp [slotWeight, h]

/-- The slot weight of an occupied lookahead slot. -/
theorem slotWeight_of_some {s : LexState} {k : Kind} (h : s.next = some k) :
    slotWeight s = 2 := by
  simp [slotWeight, h]

/-- Measure after emitting a Semi. -/
theorem M_set_last_semi (u : LexState) : M { u with last := some Kind.semi } = 3 * remaining u + slotWeight u := rfl

/-- Measure after emitting a LeftBrace. -/
theorem M_set_last_lb (u : LexState) : M { u with last := some Kind.leftBrace } = 3 * remaining u + slotWeight u + 1 := rfl

/-- Measure after emitting a RightBrace. -/
theorem M_set_last_rb (u : LexState) : M { u with last := some Kind.rightBrace } = 3 * remaining u + slotWeight u + 1 := rfl

/-- Measure after emitting a Word. -/
theorem M_set_last_word (u : LexState) (w : String) : M { u with last := some (Kind.word w) } = 3 * remaining u + slotWeight u + 1 := rfl

/-- Measure after the right-brace rule fills the lookahead slot. -/
theorem M_rbslot (u : LexState) : M { u with next := some Kind.rightBrace, last := some Kind.semi } = 3 * remaining u + 2 := rfl

/-- Measure bound after the lookahead slot is emptied by emission. -/
theorem M_clear_slot_le (u : LexState) (k : Kind) : M { u with next := none, last := some k } ≤ 3 * remaining u + 1 := by
  have h1 : M { u with next := none, last := some k } = 3 * remaining u + 0 + lastWeight { u with next := none, last := some k } := rfl
  have h2 := lastWeight_le { u with next := none, last := some k }
  omega

/-- Invariant of the word buffer while a token accumulates: every collected
character is neither whitespace nor a line terminator, and the first
collected character is not a brace. -/
def bufOk (buf : List Char) : Prop :=
  (∀ c ∈ buf, isRustWhitespace c = false ∧ isLineTerminator c = false) ∧
  (∀ c, buf.head? = some c → c ≠ '{' ∧ c ≠ '}')

/-- The empty buffer is fine. -/
theorem bufOk_nil : bufOk [] := by
  constructor
  · intro c hc
    simp at hc
  · intro c hc
    simp at hc

/-- Appending a plain character preserves the buffer invariant. -/
theorem bufOk_append {buf : List Char} {c : Char} (h : bufOk buf)
    (hws : isRustWhitespace c = false) (ht : isLineTerminator c = false)
    (hbr : buf = [] → c ≠ '{' ∧ c ≠ '}') : bufOk (buf ++ [c]) := by
  constructor
  · intro d hd
    rcases List.mem_append.mp hd with h1 | h2
    · exact h.1 d h1
    · simp at h2
      subst h2
      exact ⟨hws, ht⟩
  · intro d hd
    cases buf with
    | nil =>
      simp at hd
      subst hd
      exact hbr rfl
    | cons a t =>
      simp at hd
      subst hd
      exact h.2 _ rfl

/-- The shape of every emitted Word text. -/
def wordOk (w : String) : Prop :=
  w ≠ "" ∧
  (∀ c ∈ w.toList, isRustWhitespace c = false ∧ isLineTerminator c = false) ∧
  (∀ c, w.toList.head? = some c → c ≠ '{' ∧ c ≠ '}')

/-- A nonempty buffer satisfying the buffer invariant yields a well-formed
Word text. -/
theorem wordOk_mk {buf : List Char} (hne : buf ≠ []) (h : bufOk buf) :
    wordOk (String.mk buf) := by
  refine ⟨?_, ?_, ?_⟩
  · intro hcon
    apply hne
    have h2 : (String.mk buf).data = String.data "" := congrArg String.data hcon
    have h3 : String.data "" = [] := rfl
    rw [h3] at h2
    exact h2
  · intro d hd
    exact h.1 d hd
  · intro d hd
    exact h.2 d hd

/-- What one run of the token-producing loop guarantees: a lower bound on the
line counter, bounds on the termination measure, the exact shape of the
end-of-stream answer, tracking of the last-emitted kind, the lookahead-slot
invariant, the provenance of RightBrace, well-formedness of Word texts, and
the behaviour of the first pull of a stream. -/
structure PullPost (buf : List Char) (s : LexState) (ot : Option Token)
    (s' : LexState) : Prop where
  line_ge : 1 ≤ s.line → 1 ≤ s'.line
  m_le : M s' ≤ M s + 1
  m_lt : buf = [] → ∀ t, ot = some t → M s' < M s
  none_case : ot = none → s'.last = s.last ∧ s.last = some Kind.semi ∧
    s'.next = s.next ∧ chars s' = []
  last_tracks : ∀ t, ot = some t → s'.last = some t.kind
  slot_inv : s.next = none → ∀ k, s'.next = some k →
    k = Kind.rightBrace ∧ s'.last = some Kind.semi
  rb_prev : s.next = none → ∀ t, ot = some t → t.kind = Kind.rightBrace →
    s.last = some Kind.semi
  word_wf : s.next = none → ∀ t w, ot = some t → t.kind = Kind.word w →
    wordOk w
  first_pull : s.last = none → s.next = none → ot ≠ none ∧
    (∀ t, ot = some t → t.kind = Kind.semi →
      s'.next = some Kind.rightBrace ∨
        (chars s' = [] ∧ s'.next = none ∧ s'.last = some Kind.semi))

/-- Master lemma about the token-producing loop: with sufficient fuel and a
valid line counter it never fails, and its answer satisfies PullPost. -/
theorem lexLoopF_spec :
    ∀ (fuel : Nat) (buf : List Char) (s : LexState), remaining s < fuel →
      1 ≤ s.line → bufOk buf →
      ∃ ot s', lexLoopF fuel buf s = .ok (ot, s') ∧ PullPost buf s ot s' := by
  intro fuel
  induction fuel with
  | zero =>
    intro buf s hrem hline hbuf
    omega
  | succ n ih =>
    intro buf s hrem hline hbuf
    rcases hnc : nextChar s with ⟨oc, s1⟩
    cases oc with
    | none =>
      obtain ⟨heq, hcs⟩ := nextChar_none hnc
      subst heq
      by_cases hb : buf = []
      · subst hb
        by_cases hl : s.last = some Kind.semi
        · -- end of stream: the Cursor is exhausted and the last kind was Semi
          refine ⟨none, s, by simp [lexLoopF, hnc, hl], ?_⟩
          refine ⟨fun h => h, by omega, ?_, ?_, ?_, ?_, ?_, ?_, ?_⟩
          · intro _ t ht
            exact absurd ht (by simp)
          · intro _
            exact ⟨rfl, hl, rfl, hcs⟩
          · intro t ht
            exact absurd ht (by simp)
          · intro hsn k hk
            rw [hsn] at hk
            cases hk
          · intro _ t ht _
            exact absurd ht (by simp)
          · intro _ t w ht _
            exact absurd ht (by simp)
          · intro h0 _
            rw [h0] at hl
            cases hl
        · -- emit the final trailing Semi
          refine ⟨some ⟨Kind.semi, s.line⟩, { s with last := some Kind.semi },
            by simp [lexLoopF, hnc, hl, emit], ?_⟩
          have hM1 := M_set_last_semi s
          have hM2 : M s = 3 * remaining s + slotWeight s + lastWeight s := rfl
          have hl1 : lastWeight s = 1 := lastWeight_of_ne hl
          refine ⟨fun h => h, by omega, ?_, ?_, ?_, ?_, ?_, ?_, ?_⟩
          · intro _ t ht
            omega
          · intro h
            exact absurd h (by simp)
          · intro t ht
            cases ht
            rfl
          · intro hsn k hk
            have : s.next = some k := hk
            rw [hsn] at this
            cases this
          · intro _ t ht hk
            cases ht
            simp at hk
          · intro _ t w ht hw
            cases ht
            simp at hw
          · intro h0 h1
            refine ⟨by simp, ?_⟩
            intro t ht _
            exact Or.inr ⟨hcs, h1, rfl⟩
      · -- Cursor exhausted with a pending word: emit it
        refine ⟨some ⟨Kind.word (String.mk buf), s.line⟩,
          { s with last := some (Kind.word (String.mk buf)) },
          by simp [lexLoopF, hnc, hb, emit], ?_⟩
        have hM1 := M_set_last_word s (String.mk buf)
        have hM2 : M s = 3 * remaining s + slotWeight s + lastWeight s := rfl
        refine ⟨fun h => h, by omega, ?_, ?_, ?_, ?_, ?_, ?_, ?_⟩
        · intro h
          exact absurd h hb
        · intro h
          exact absurd h (by simp)
        · intro t ht
          cases ht
          rfl
        · intro hsn k hk
          have : s.next = some k := hk
          rw [hsn] at this
          cases this
        · intro _ t ht hk
          cases ht
          simp at hk
        · intro _ t w ht hw
          cases ht
          simp at hw
          subst hw
          exact wordOk_mk hb hbuf
        · intro h0 h1
          refine ⟨by simp, ?_⟩
          intro t ht hk
          cases ht
          simp at hk
    | some c =>
      obtain ⟨hchars, hpk, hnext1, hlast1, hline1⟩ := nextChar_some hnc
      have hrem1 : remaining s = remaining s1 + 1 := nextChar_some_remaining hnc
      have hlge1 : s.line ≤ s1.line := nextChar_some_line_le hnc
      by_cases hLB : buf = [] ∧ c = '{'
      · -- left brace: discard following terminators, emit LeftBrace
        obtain ⟨hb, rfl⟩ := hLB
        subst hb
        obtain ⟨s2, hc1, hc2, hc3, hc4, hc5, hc6⟩ := consumeLT_spec s1
        have hsline : s1.line = s.line := by
          rw [hline1]
          simp
        refine ⟨some ⟨Kind.leftBrace, s1.line⟩,
          { s2 with last := some Kind.leftBrace },
          by simp [lexLoopF, hnc, hc1, emit], ?_⟩
        have hM1 := M_set_last_lb s2
        have hM2 : M s = 3 * remaining s + slotWeight s + lastWeight s := rfl
        have eslot : slotWeight s2 = slotWeight s := by
          simp [slotWeight, hc3, hnext1]
        have hlw : lastWeight s ≤ 1 := lastWeight_le s
        refine ⟨?_, by omega, ?_, ?_, ?_, ?_, ?_, ?_, ?_⟩
        · intro h
          show 1 ≤ s2.line
          omega
        · intro _ t ht
          omega
        · intro h
          exact absurd h (by simp)
        · intro t ht
          cases ht
          rfl
        · intro hsn k hk
          have h2 : s2.next = some k := hk
          rw [hc3, hnext1, hsn] at h2
          cases h2
        · intro _ t ht hk
          cases ht
          simp at hk
        · intro _ t w ht hw
          cases ht
          simp at hw
        · intro h0 h1
          refine ⟨by simp, ?_⟩
          intro t ht hk
          cases ht
          simp at hk
      · by_cases hRB : buf = [] ∧ c = '}'
        · -- right brace: insert an implicit Semi first when needed
          obtain ⟨hb, rfl⟩ := hRB
          subst hb
          have hsline : s1.line = s.line := by
            rw [hline1]
            simp
          by_cases hL : s1.last = some Kind.semi
          · -- the body is already terminator-closed: emit RightBrace
            refine ⟨some ⟨Kind.rightBrace, s1.line⟩,
              { s1 with last := some Kind.rightBrace },
              by simp [lexLoopF, hnc, hL, emit], ?_⟩
            have hM1 := M_set_last_rb s1
            have hM2 : M s = 3 * remaining s + slotWeight s + lastWeight s := rfl
            have eslot : slotWeight s1 = slotWeight s := by
              simp [slotWeight, hnext1]
            have hlw : lastWeight s = 0 := by
              apply lastWeight_of_semi
              rw [← hlast1]
              exact hL
            refine ⟨?_, by omega, ?_, ?_, ?_, ?_, ?_, ?_, ?_⟩
            · intro h
              show 1 ≤ s1.line
              omega
            · intro _ t ht
              omega
            · intro h
              exact absurd h (by simp)
            · intro t ht
              cases ht
              rfl
            · intro hsn k hk
              have h2 : s1.next = some k := hk
              rw [hnext1, hsn] at h2
              cases h2
            · intro _ t ht _
              rw [← hlast1]
              exact hL
            · intro _ t w ht hw
              cases ht
              simp at hw
            · intro h0 h1
              rw [h0] at hlast1
              rw [hlast1] at hL
              cases hL
          · -- store RightBrace in the lookahead slot and emit Semi now
            refine ⟨some ⟨Kind.semi, s1.line⟩,
              { s1 with next := some Kind.rightBrace, last := some Kind.semi },
              by simp [lexLoopF, hnc, hL, emit], ?_⟩
            have hM1 := M_rbslot s1
            have hM2 : M s = 3 * remaining s + slotWeight s + lastWeight s := rfl
            have hlw : lastWeight s = 1 := by
              apply lastWeight_of_ne
              rw [← hlast1]
              exact hL
            have hsw : slotWeight s ≤ 2 := by
              unfold slotWeight
              split <;> omega
            refine ⟨?_, by omega, ?_, ?_, ?_, ?_, ?_, ?_, ?_⟩
            · intro h
              show 1 ≤ s1.line
              omega
            · intro _ t ht
              omega
            · intro h
              exact absurd h (by simp)
            · intro t ht
              cases ht
              rfl
            · intro _ k hk
              have h2 : some Kind.rightBrace = some k := hk
              cases h2
              exact ⟨rfl, rfl⟩
            · intro _ t ht hk
              cases ht
              simp at hk
            · intro _ t w ht hw
              cases ht
              simp at hw
            · intro h0 h1
              refine ⟨by simp, ?_⟩
              intro t ht _
              exact Or.inl rfl
        · by_cases hterm : isLineTerminator c = true
          · by_cases hb : buf = []
            · -- a terminator run with an empty buffer
              subst hb
              have hne1 : c ≠ '{' := fun h => hLB ⟨rfl, h⟩
              have hne2 : c ≠ '}' := fun h => hRB ⟨rfl, h⟩
              obtain ⟨s2, hc1, hc2, hc3, hc4, hc5, hc6⟩ := consumeLT_spec s1
              have hlge2 : 1 ≤ s2.line := by omega
              by_cases hz : s2.last = none
              · -- no token emitted yet: suppress the run, re-enter next()
                have hzn : s2.next = s1.next := hc3
                cases hsn : s.next with
                | some k =>
                  -- the lookahead slot is occupied: emit it
                  have hzs : s2.next = some k := by rw [hzn, hnext1, hsn]
                  refine ⟨some ⟨k, s2.line⟩,
                    { s2 with next := none, last := some k },
                    by simp [lexLoopF, hnc, hne1, hne2, hterm, hc1, hz, hzs,
                      emit], ?_⟩
                  have hM1 := M_clear_slot_le s2 k
                  have hM2 : M s = 3 * remaining s + slotWeight s +
                      lastWeight s := rfl
                  have hsw : slotWeight s = 2 := slotWeight_of_some hsn
                  refine ⟨?_, by omega, ?_, ?_, ?_, ?_, ?_, ?_, ?_⟩
                  · intro h
                    show 1 ≤ s2.line
                    omega
                  · intro _ t ht
                    omega
                  · intro h
                    exact absurd h (by simp)
                  · intro t ht
                    cases ht
                    rfl
                  · intro hsn2 k2 hk2
                    rw [hsn2] at hsn
                    cases hsn
                  · intro hsn2 t ht hk
                    rw [hsn2] at hsn
                    cases hsn
                  · intro hsn2 t w ht hw
                    rw [hsn2] at hsn
                    cases hsn
                  · intro h0 h1
                    rw [h1] at hsn
                    cases hsn
                | none =>
                  -- slot empty: loop again from the top with an empty buffer
                  have hzs : s2.next = none := by rw [hzn, hnext1, hsn]
                  have hlast0 : s2.last = s.last := by rw [hc4, hlast1]
                  obtain ⟨ot, s', hrec, hpost⟩ :=
                    ih [] s2 (by omega) hlge2 bufOk_nil
                  refine ⟨ot, s',
                    by simp [lexLoopF, hnc, hne1, hne2, hterm, hc1, hz, hzs,
                      hrec], ?_⟩
                  have eslot : slotWeight s2 = slotWeight s := by
                    simp [slotWeight, hzs, hsn]
                  have elw : lastWeight s2 = lastWeight s := by
                    simp [lastWeight, hlast0]
                  have hM2 : M s2 = 3 * remaining s2 + slotWeight s2 +
                      lastWeight s2 := rfl
                  have hM3 : M s = 3 * remaining s + slotWeight s +
                      lastWeight s := rfl
                  refine ⟨?_, ?_, ?_, ?_, ?_, ?_, ?_, ?_, ?_⟩
                  · intro _
                    exact hpost.line_ge hlge2
                  · have := hpost.m_le
                    omega
                  · intro _ t ht
                    have := hpost.m_lt rfl t ht
                    omega
                  · intro h
                    have h2 := (hpost.none_case h).2.1
                    rw [hz] at h2
                    cases h2
                  · exact hpost.last_tracks
                  · intro _ k hk
                    exact hpost.slot_inv hzs k hk
                  · intro _ t ht hk
                    have h2 := hpost.rb_prev hzs t ht hk
                    rw [hz] at h2
                    cases h2
                  · intro _ t w ht hw
                    exact hpost.word_wf hzs t w ht hw
                  · intro h0 h1
                    exact hpost.first_pull hz hzs
              · -- a token was already emitted: emit Semi for the run
                refine ⟨some ⟨Kind.semi, s1.line - 1⟩,
                  { s2 with last := some Kind.semi },
                  by simp [lexLoopF, hnc, hne1, hne2, hterm, hc1, hz, emit],
                  ?_⟩
                have hM1 := M_set_last_semi s2
                have hM2 : M s = 3 * remaining s + slotWeight s +
                    lastWeight s := rfl
                have eslot : slotWeight s2 = slotWeight s := by
                  simp [slotWeight, hc3, hnext1]
                have hlw : lastWeight s ≤ 1 := lastWeight_le s
                refine ⟨?_, by omega, ?_, ?_, ?_, ?_, ?_, ?_, ?_⟩
                · intro h
                  show 1 ≤ s2.line
                  omega
                · intro _ t ht
                  omega
                · intro h
                  exact absurd h (by simp)
                · intro t ht
                  cases ht
                  rfl
                · intro hsn k hk
                  have h2 : s2.next = some k := hk
                  rw [hc3, hnext1, hsn] at h2
                  cases h2
                · intro _ t ht hk
                  cases ht
                  simp at hk
                · intro _ t w ht hw
                  cases ht
                  simp at hw
                · intro h0 h1
                  rw [h0] at hlast1
                  rw [hlast1] at hc4
                  exact absurd hc4 hz
            · -- a terminator ends a pending word: push it back, emit the word
              have hne0 : ¬ (buf = [] ∧ c = '{') := hLB
              have hne0' : ¬ (buf = [] ∧ c = '}') := hRB
              obtain ⟨s2, hp1, hp2, hp3, hp4, hp5⟩ :=
                pushChar_after_read hnc hline
              refine ⟨some ⟨Kind.word (String.mk buf), s2.line⟩,
                { s2 with last := some (Kind.word (String.mk buf)) },
                by simp [lexLoopF, hnc, hb, hne0, hne0', hterm, hp1, emit],
                ?_⟩
              have hM1 := M_set_last_word s2 (String.mk buf)
              have hM2 : M s = 3 * remaining s + slotWeight s +
                  lastWeight s := rfl
              have erem : remaining s2 = remaining s := by
                simp [remaining, hp2]
              have eslot : slotWeight s2 = slotWeight s := by
                simp [slotWeight, hp3]
              refine ⟨?_, by omega, ?_, ?_, ?_, ?_, ?_, ?_, ?_⟩
              · intro h
                show 1 ≤ s2.line
                omega
              · intro h
                exact absurd h hb
              · intro h
                exact absurd h (by simp)
              · intro t ht
                cases ht
                rfl
              · intro hsn k hk
                have h2 : s2.next = some k := hk
                rw [hp3, hsn] at h2
                cases h2
              · intro _ t ht hk
                cases ht
                simp at hk
              · intro _ t w ht hw
                cases ht
                simp at hw
                subst hw
                exact wordOk_mk hb hbuf
              · intro h0 h1
                refine ⟨by simp, ?_⟩
                intro t ht hk
                cases ht
                simp at hk
          · -- not a terminator
            have hcnl : c ≠ '\n' :=
              ne_newline_of_not_terminator (by simpa using hterm)
            have hsline : s1.line = s.line := by
              rw [hline1]
              simp [hcnl]
            by_cases hws : isRustWhitespace c = true
            · by_cases hb : buf = []
              · -- skip leading whitespace
                subst hb
                have hne1 : c ≠ '{' := fun h => hLB ⟨rfl, h⟩
                have hne2 : c ≠ '}' := fun h => hRB ⟨rfl, h⟩
                obtain ⟨ot, s', hrec, hpost⟩ :=
                  ih [] s1 (by omega) (by omega) bufOk_nil
                refine ⟨ot, s',
                  by simp [lexLoopF, hnc, hne1, hne2, hterm, hws, hrec], ?_⟩
                have eslot : slotWeight s1 = slotWeight s := by
                  simp [slotWeight, hnext1]
                have elw : lastWeight s1 = lastWeight s := by
                  simp [lastWeight, hlast1]
                have hM2 : M s1 = 3 * remaining s1 + slotWeight s1 +
                    lastWeight s1 := rfl
                have hM3 : M s = 3 * remaining s + slotWeight s +
                    lastWeight s := rfl
                refine ⟨?_, ?_, ?_, ?_, ?_, ?_, ?_, ?_, ?_⟩
                · intro _
                  exact hpost.line_ge (by omega)
                · have := hpost.m_le
                  omega
                · intro _ t ht
                  have := hpost.m_lt rfl t ht
                  omega
                · intro h
                  obtain ⟨a1, a2, a3, a4⟩ := hpost.none_case h
                  refine ⟨by rw [a1, hlast1], by rw [← hlast1]; exact a2,
                    by rw [a3, hnext1], a4⟩
                · exact hpost.last_tracks
                · intro hsn k hk
                  exact hpost.slot_inv (by rw [hnext1, hsn]) k hk
                · intro hsn t ht hk
                  have := hpost.rb_prev (by rw [hnext1, hsn]) t ht hk
                  rw [← hlast1]
                  exact this
                · intro hsn t w ht hw
                  exact hpost.word_wf (by rw [hnext1, hsn]) t w ht hw
                · intro h0 h1
                  exact hpost.first_pull (by rw [hlast1, h0])
                    (by rw [hnext1, h1])
              · -- whitespace ends a pending word without pushback
                have hne0 : ¬ (buf = [] ∧ c = '{') := hLB
                have hne0' : ¬ (buf = [] ∧ c = '}') := hRB
                refine ⟨some ⟨Kind.word (String.mk buf), s1.line⟩,
                  { s1 with last := some (Kind.word (String.mk buf)) },
                  by simp [lexLoopF, hnc, hb, hne0, hne0', hterm, hws, emit],
                  ?_⟩
                have hM1 := M_set_last_word s1 (String.mk buf)
                have hM2 : M s = 3 * remaining s + slotWeight s +
                    lastWeight s := rfl
                have eslot : slotWeight s1 = slotWeight s := by
                  simp [slotWeight, hnext1]
                refine ⟨?_, by omega, ?_, ?_, ?_, ?_, ?_, ?_, ?_⟩
                · intro h
                  show 1 ≤ s1.line
                  omega
                · intro h
                  exact absurd h hb
                · intro h
                  exact absurd h (by simp)
                · intro t ht
                  cases ht
                  rfl
                · intro hsn k hk
                  have h2 : s1.next = some k := hk
                  rw [hnext1, hsn] at h2
                  cases h2
                · intro _ t ht hk
                  cases ht
                  simp at hk
                · intro _ t w ht hw
                  cases ht
                  simp at hw
                  subst hw
                  exact wordOk_mk hb hbuf
                · intro h0 h1
                  refine ⟨by simp, ?_⟩
                  intro t ht hk
                  cases ht
                  simp at hk
            · -- an ordinary character: append it to the buffer
              have hne0 : ¬ (buf = [] ∧ c = '{') := hLB
              have hne0' : ¬ (buf = [] ∧ c = '}') := hRB
              have hbuf2 : bufOk (buf ++ [c]) := by
                apply bufOk_append hbuf (by simpa using hws)
                  (by simpa using hterm)
                intro hb
                exact ⟨fun h => hLB ⟨hb, h⟩, fun h => hRB ⟨hb, h⟩⟩
              obtain ⟨ot, s', hrec, hpost⟩ :=
                ih (buf ++ [c]) s1 (by omega) (by omega) hbuf2
              refine ⟨ot, s',
                by simp [lexLoopF, hnc, hne0, hne0', hterm, hws, hrec], ?_⟩
              have eslot : slotWeight s1 = slotWeight s := by
                simp [slotWeight, hnext1]
              have elw : lastWeight s1 = lastWeight s := by
                simp [lastWeight, hlast1]
              have hM2 : M s1 = 3 * remaining s1 + slotWeight s1 +
                  lastWeight s1 := rfl
              have hM3 : M s = 3 * remaining s + slotWeight s +
                  lastWeight s := rfl
              refine ⟨?_, ?_, ?_, ?_, ?_, ?_, ?_, ?_, ?_⟩
              · intro _
                exact hpost.line_ge (by omega)
              · have := hpost.m_le
                omega
              · intro _ t ht
                have := hpost.m_le
                omega
              · intro h
                obtain ⟨a1, a2, a3, a4⟩ := hpost.none_case h
                refine ⟨by rw [a1, hlast1], by rw [← hlast1]; exact a2,
                  by rw [a3, hnext1], a4⟩
              · exact hpost.last_tracks
              · intro hsn k hk
                exact hpost.slot_inv (by rw [hnext1, hsn]) k hk
              · intro hsn t ht hk
                have := hpost.rb_prev (by rw [hnext1, hsn]) t ht hk
                rw [← hlast1]
                exact this
              · intro hsn t w ht hw
                exact hpost.word_wf (by rw [hnext1, hsn]) t w ht hw
              · intro h0 h1
                exact hpost.first_pull (by rw [hlast1, h0])
                  (by rw [hnext1, h1])

/-- The state invariant maintained across pulls: the lookahead slot can only
hold RightBrace, and only while the Semi emitted for it is the most recently
emitted kind. -/
def Inv (s : LexState) : Prop :=
  ∀ k, s.next = some k → k = Kind.rightBrace ∧ s.last = some Kind.semi

/-- What one full pull of Iterator::next guarantees. -/
structure NextPost (s : LexState) (ot : Option Token) (s' : LexState) :
    Prop where
  line_ge : 1 ≤ s'.line
  m_lt : ∀ t, ot = some t → M s' < M s
  none_case : ot = none → s.next = none ∧ s.last = some Kind.semi ∧
    s'.last = some Kind.semi ∧ s'.next = none ∧ chars s' = []
  last_tracks : ∀ t, ot = some t → s'.last = some t.kind
  inv_next : Inv s → Inv s'
  rb_prev : Inv s → ∀ t, ot = some t → t.kind = Kind.rightBrace →
    s.last = some Kind.semi
  word_wf : Inv s → ∀ t w, ot = some t → t.kind = Kind.word w → wordOk w
  first_pull : s.last = none → s.next = none → ot ≠ none ∧
    (∀ t, ot = some t → t.kind = Kind.semi →
      s'.next = some Kind.rightBrace ∨
        (chars s' = [] ∧ s'.next = none ∧ s'.last = some Kind.semi))

/-- One pull of Iterator::next never fails when the line counter is valid,
and its answer satisfies NextPost. -/
theorem lexNext_spec (s : LexState) (hline : 1 ≤ s.line) :
    ∃ ot s', lexNext s = .ok (ot, s') ∧ NextPost s ot s' := by
  cases hsn : s.next with
  | some k =>
    refine ⟨some ⟨k, s.line⟩, { s with next := none, last := some k },
      by simp [lexNext, hsn, emit], ?_⟩
    have hM1 := M_clear_slot_le s k
    have hM2 : M s = 3 * remaining s + slotWeight s + lastWeight s := rfl
    have hsw : slotWeight s = 2 := slotWeight_of_some hsn
    refine ⟨hline, ?_, ?_, ?_, ?_, ?_, ?_, ?_⟩
    · intro t ht
      omega
    · intro h
      exact absurd h (by simp)
    · intro t ht
      cases ht
      rfl
    · intro hI k2 hk2
      cases hk2
    · intro hI t ht hk
      cases ht
      exact (hI k hsn).2
    · intro hI t w ht hw
      cases ht
      have h2 := (hI k hsn).1
      rw [h2] at hw
      cases hw
    · intro h0 h1
      rw [h1] at hsn
      cases hsn
  | none =>
    obtain ⟨ot, s', hrec, hpost⟩ :=
      lexLoopF_spec (remaining s + 1) [] s (by omega) hline bufOk_nil
    refine ⟨ot, s', by simp [lexNext, hsn, hrec], ?_⟩
    refine ⟨hpost.line_ge hline, ?_, ?_, hpost.last_tracks, ?_, ?_, ?_, ?_⟩
    · intro t ht
      exact hpost.m_lt rfl t ht
    · intro h
      obtain ⟨a1, a2, a3, a4⟩ := hpost.none_case h
      exact ⟨hsn, a2, a1.trans a2, a3.trans hsn, a4⟩
    · intro hI k hk
      exact hpost.slot_inv hsn k hk
    · intro hI t ht hk
      exact hpost.rb_prev hsn t ht hk
    · intro hI t w ht hw
      exact hpost.word_wf hsn t w ht hw
    · exact hpost.first_pull

/-- A state with no pending input, an empty lookahead slot, and Semi as the
last emitted kind reports end of stream and is left unchanged. -/
theorem lexNext_stuck {s : LexState} (h1 : chars s = [])
    (h2 : s.next = none) (h3 : s.last = some Kind.semi) :
    lexNext s = .ok (none, s) := by
  have hpk : s.peek = none := by
    cases hp : s.peek with
    | none => rfl
    | some c =>
      rw [chars, hp] at h1
      cases h1
  have hsrc : s.src = [] := by
    rw [chars, hpk] at h1
    simpa using h1
  have hnc : nextChar s = (none, s) := by
    simp [nextChar, hpk, hsrc]
  have hrem : remaining s = 0 := by
    simp [remaining, h1]
  rw [lexNext]
  rw [h2]
  simp only [hrem]
  simp [lexLoopF, hnc, h3]

/-- The end-of-stream answer is absorbing: pulling again returns end of
stream from the same state (the claim that once the iterator reports None it
reports None forever). -/
theorem lexNext_none_absorbing {s s' : LexState} (hline : 1 ≤ s.line)
    (h : lexNext s = .ok (none, s')) : lexNext s' = .ok (none, s') := by
  obtain ⟨ot, s2, hnx, hpost⟩ := lexNext_spec s hline
  rw [h] at hnx
  have hot : ot = none := by
    cases ot with
    | none => rfl
    | some t =>
      cases hnx
  subst hot
  have hs2 : s2 = s' := by
    cases hnx
    rfl
  subst hs2
  obtain ⟨b1, b2, b3, b4, b5⟩ := hpost.none_case rfl
  exact lexNext_stuck b5 b4 b3

/-- What the collected token stream from a state guarantees. -/
structure StreamPost (s : LexState) (l : List Token) : Prop where
  ends_semi : ∀ t, l.getLast? = some t → t.kind = Kind.semi
  head_rb : ∀ t, l.head? = some t → t.kind = Kind.rightBrace →
    s.last = some Kind.semi
  pairs_rb : ∀ i t', l.get? (i + 1) = some t' → t'.kind = Kind.rightBrace →
    ∃ t, l.get? i = some t ∧ t.kind = Kind.semi
  words : ∀ t ∈ l, ∀ w, t.kind = Kind.word w → wordOk w
  nonempty_of_start : s.last = none → l ≠ []
  first_semi : s.last = none → ∀ t, l.head? = some t → t.kind = Kind.semi →
    l.length = 1 ∨ ∃ t', l.get? 1 = some t' ∧ t'.kind = Kind.rightBrace

/-- An empty collected stream forces Semi as the last emitted kind of the
state it was collected from. -/
theorem tokensFromF_nil_last {n : Nat} {s' : LexState} (hline : 1 ≤ s'.line)
    (hM : M s' < n) (hts : tokensFromF n s' = .ok []) :
    s'.last = some Kind.semi := by
  cases n with
  | zero => omega
  | succ m =>
    obtain ⟨ot2, s'', hnx2, hpost2⟩ := lexNext_spec s' hline
    cases ot2 with
    | none => exact (hpost2.none_case rfl).2.1
    | some t3 =>
      simp only [tokensFromF, hnx2] at hts
      cases h3 : tokensFromF m s'' with
      | error e =>
        rw [h3] at hts
        cases hts
      | ok ts2 =>
        rw [h3] at hts
        cases hts

/-- When the lookahead slot holds RightBrace, the collected stream starts
with a RightBrace token. -/
theorem tokensFromF_cons_of_slot {n : Nat} {s' : LexState} {ts : List Token}
    (hM : M s' < n) (hslot : s'.next = some Kind.rightBrace)
    (hts : tokensFromF n s' = .ok ts) :
    ∃ ts2, ts = Token.mk Kind.rightBrace s'.line :: ts2 := by
  cases n with
  | zero => omega
  | succ m =>
    have hnx : lexNext s' = .ok (some ⟨Kind.rightBrace, s'.line⟩,
        { s' with next := none, last := some Kind.rightBrace }) := by
      simp [lexNext, hslot, emit]
    simp only [tokensFromF, hnx] at hts
    cases h3 : tokensFromF m { s' with next := none, last := some Kind.rightBrace } with
    | error e =>
      rw [h3] at hts
      cases hts
    | ok ts2 =>
      rw [h3] at hts
      cases hts
      exact ⟨ts2, rfl⟩

/-- Master lemma about the collected token stream: with sufficient fuel it
never fails, and it satisfies StreamPost. -/
theorem tokensFromF_spec :
    ∀ (fuel : Nat) (s : LexState), M s < fuel → 1 ≤ s.line → Inv s →
      ∃ l, tokensFromF fuel s = .ok l ∧ StreamPost s l := by
  intro fuel
  induction fuel with
  | zero =>
    intro s hM hline hInv
    omega
  | succ n ih =>
    intro s hM hline hInv
    obtain ⟨ot, s', hnx, hpost⟩ := lexNext_spec s hline
    cases ot with
    | none =>
      refine ⟨[], by simp [tokensFromF, hnx], ?_⟩
      obtain ⟨b1, b2, b3, b4, b5⟩ := hpost.none_case rfl
      refine ⟨?_, ?_, ?_, ?_, ?_, ?_⟩
      · intro t ht
        cases ht
      · intro t ht
        cases ht
      · intro i t' hi
        cases hi
      · intro t ht
        simp at ht
      · intro h0
        rw [h0] at b2
        cases b2
      · intro h0 t ht
        cases ht
    | some t =>
      have hM' : M s' < M s := hpost.m_lt t rfl
      obtain ⟨ts, hts, hposts⟩ :=
        ih s' (by omega) hpost.line_ge (hpost.inv_next hInv)
      refine ⟨t :: ts, by simp [tokensFromF, hnx, hts], ?_⟩
      refine ⟨?_, ?_, ?_, ?_, ?_, ?_⟩
      · -- the last token of a stream is Semi
        intro t2 ht2
        cases ts with
        | nil =>
          simp at ht2
          subst ht2
          have hlast : s'.last = some Kind.semi :=
            tokensFromF_nil_last hpost.line_ge (by omega) hts
          have htrack := hpost.last_tracks t rfl
          exact Option.some.inj (htrack.symm.trans hlast)
        | cons t3 ts3 =>
          rw [List.getLast?_cons_cons] at ht2
          exact hposts.ends_semi t2 ht2
      · -- a RightBrace at the head forces Semi as previous kind
        intro t2 ht2 hk
        simp at ht2
        subst ht2
        exact hpost.rb_prev hInv t rfl hk
      · -- every RightBrace is immediately preceded by a Semi
        intro i t' hi hk
        cases i with
        | zero =>
          have hh : ts.head? = some t' := by
            cases ts with
            | nil => cases hi
            | cons t3 ts3 =>
              simp at hi
              simp [hi]
          have hlast : s'.last = some Kind.semi := hposts.head_rb t' hh hk
          have htrack := hpost.last_tracks t rfl
          exact ⟨t, rfl, Option.some.inj (htrack.symm.trans hlast)⟩
        | succ j =>
          obtain ⟨t2, hget, hsemi⟩ := hposts.pairs_rb j t' hi hk
          exact ⟨t2, hget, hsemi⟩
      · -- all Word texts are well formed
        intro t2 ht2 w hw
        rcases List.mem_cons.mp ht2 with h2 | h2
        · subst h2
          exact hpost.word_wf hInv t2 w rfl hw
        · exact hposts.words t2 h2 w hw
      · intro _
        simp
      · -- a stream that starts with Semi
        intro h0 t2 ht2 hk
        simp at ht2
        subst ht2
        have hsn : s.next = none := by
          cases hsn : s.next with
          | none => rfl
          | some k =>
            have := (hInv k hsn).2
            rw [h0] at this
            cases this
        rcases (hpost.first_pull h0 hsn).2 t rfl hk with hslot | hstuck
        · obtain ⟨ts2, hts2⟩ :=
            tokensFromF_cons_of_slot (by omega) hslot hts
          subst hts2
          exact Or.inr ⟨⟨Kind.rightBrace, s'.line⟩, rfl, rfl⟩
        · obtain ⟨c1, c2, c3⟩ := hstuck
          have hstop : lexNext s' = .ok (none, s') := lexNext_stuck c1 c2 c3
          have : ts = [] := by
            cases n with
            | zero => omega
            | succ m =>
              rw [tokensFromF, hstop] at hts
              cases hts
              rfl
          subst this
          exact Or.inl rfl

/-- The full token stream of any input is defined and satisfies StreamPost
from the initial state. -/
theorem tokensOf_spec (input : String) :
    ∃ l, tokensOf input = .ok l ∧ StreamPost (initLexer input) l := by
  refine tokensFromF_spec (M (initLexer input) + 1) (initLexer input)
    (by omega) (by simp [initLexer]) ?_
  intro k hk
  simp [initLexer] at hk

/-- C1 (code evaluated at the failing input): for the input text consisting
of a Word, a semicolon-initiated terminator run, and another Word, all on
source line 1, the Semi emitted for the run is tagged with line 0 — the
recorded line of the run minus one — instead of line 1, the line the run
started on (the line of the Word that precedes it). -/
theorem claim1_semicolon_run_line :
    tokensOf "a;b" = .ok [⟨Kind.word "a", 1⟩, ⟨Kind.semi, 0⟩,
      ⟨Kind.word "b", 1⟩, ⟨Kind.semi, 1⟩] := by
  decide

/-- C2 counterexample: on the empty input the emitted stream is the single
end-of-input Semi, so the stream does begin with a Semi token. -/
theorem claim2_counterexample :
    tokensOf "" = .ok [⟨Kind.semi, 1⟩] := by
  decide

/-- C2 (amended): the stream never begins with a Semi produced by a leading
terminator run; if the stream begins with Semi, it is either the single
end-of-input trailing terminator (the stream is exactly that one token) or
the implicit terminator inserted before a leading RightBrace (the second
token is RightBrace). -/
theorem claim2_no_leading_semi :
    ∀ (input : String) (l : List Token), tokensOf input = .ok l →
      ∀ t, l.head? = some t → t.kind = Kind.semi →
        l.length = 1 ∨ ∃ t', l.get? 1 = some t' ∧ t'.kind = Kind.rightBrace := by
  intro input l hl t ht hk
  obtain ⟨l2, hl2, hpost⟩ := tokensOf_spec input
  rw [hl] at hl2
  cases hl2
  exact hpost.first_semi rfl t ht hk

/-- C2 witness: the theorem applied to the input consisting of a single
closing brace. -/
theorem claim2_no_leading_semi_witness :
    [Token.mk Kind.semi 1, Token.mk Kind.rightBrace 1,
      Token.mk Kind.semi 1].length = 1 ∨
    ∃ t', [Token.mk Kind.semi 1, Token.mk Kind.rightBrace 1,
      Token.mk Kind.semi 1].get? 1 = some t' ∧ t'.kind = Kind.rightBrace :=
  claim2_no_leading_semi "\x7d"
    [Token.mk Kind.semi 1, Token.mk Kind.rightBrace 1, Token.mk Kind.semi 1]
    (by decide) (Token.mk Kind.semi 1) (by decide) (by decide)

/-- C3: reading a right brace with an empty buffer emits, when the last
emitted kind is not Semi, a Semi tagged with the current line while storing
RightBrace in the lookahead slot, and the next pull emits that RightBrace;
when the last emitted kind is already Semi it emits RightBrace directly.
Consequently every RightBrace in any emitted stream sits immediately after
a Semi. -/
theorem claim3_rightbrace_rule :
    (∀ s s1 : LexState, s.next = none → nextChar s = (some '}', s1) →
      (s1.last ≠ some Kind.semi →
        lexNext s = .ok (some ⟨Kind.semi, s1.line⟩, { s1 with next := some Kind.rightBrace, last := some Kind.semi }) ∧
        lexNext { s1 with next := some Kind.rightBrace, last := some Kind.semi } = .ok (some ⟨Kind.rightBrace, s1.line⟩, { s1 with next := none, last := some Kind.rightBrace })) ∧
      (s1.last = some Kind.semi →
        lexNext s = .ok (some ⟨Kind.rightBrace, s1.line⟩, { s1 with last := some Kind.rightBrace }))) ∧
    (∀ (input : String) (l : List Token) (i : Nat) (t' : Token),
      tokensOf input = .ok l → l.get? i = some t' →
      t'.kind = Kind.rightBrace →
      ∃ j t, i = j + 1 ∧ l.get? j = some t ∧ t.kind = Kind.semi) := by
  constructor
  · intro s s1 hsn hnc
    constructor
    · intro hL
      constructor
      · simp [lexNext, hsn, lexLoopF, hnc, hL, emit]
      · simp [lexNext, emit]
    · intro hL
      simp [lexNext, hsn, lexLoopF, hnc, hL, emit]
  · intro input l i t' hl hget hk
    obtain ⟨l2, hl2, hpost⟩ := tokensOf_spec input
    rw [hl] at hl2
    cases hl2
    cases i with
    | zero =>
      cases l with
      | nil => cases hget
      | cons a tl =>
        simp at hget
        subst hget
        have h3 := hpost.head_rb a rfl hk
        simp [initLexer] at h3
    | succ j =>
      obtain ⟨t, hget2, hsemi⟩ := hpost.pairs_rb j t' hget hk
      exact ⟨j, t, rfl, hget2, hsemi⟩

/-- C3 witness: the brace rule applied at a concrete state, and the global
property applied to the stream of a single closing brace. -/
theorem claim3_rightbrace_rule_witness :
    (lexNext ⟨['}'], 5, none, none, some (Kind.word "x")⟩ =
      .ok (some ⟨Kind.semi, 5⟩, ⟨[], 5, none, some Kind.rightBrace, some Kind.semi⟩) ∧
     lexNext ⟨[], 5, none, some Kind.rightBrace, some Kind.semi⟩ =
      .ok (some ⟨Kind.rightBrace, 5⟩, ⟨[], 5, none, none, some Kind.rightBrace⟩)) ∧
    (∃ j t, 1 = j + 1 ∧ [Token.mk Kind.semi 1, Token.mk Kind.rightBrace 1,
      Token.mk Kind.semi 1].get? j = some t ∧ t.kind = Kind.semi) :=
  ⟨(claim3_rightbrace_rule.1 ⟨['}'], 5, none, none, some (Kind.word "x")⟩
      ⟨[], 5, none, none, some (Kind.word "x")⟩ rfl (by decide)).1 (by decide),
   claim3_rightbrace_rule.2 "\x7d"
     [Token.mk Kind.semi 1, Token.mk Kind.rightBrace 1, Token.mk Kind.semi 1]
     1 (Token.mk Kind.rightBrace 1) (by decide) (by decide) (by decide)⟩

/-- C4 counterexample: for the input Word, semicolon, blank, semicolon the
stream ends with two consecutive Semi tokens, so a non-empty stream does not
always end with exactly one Semi. -/
theorem claim4_counterexample :
    tokensOf "a; ;" = .ok [⟨Kind.word "a", 1⟩, ⟨Kind.semi, 0⟩,
      ⟨Kind.semi, 0⟩] := by
  decide

/-- C4 (amended): every emitted stream is non-empty and its final token is a
Semi (though not necessarily exactly one trailing Semi), and once a pull
reports end of stream, every further pull reports end of stream from an
unchanged state. -/
theorem claim4_trailing_semi :
    (∀ (input : String) (l : List Token), tokensOf input = .ok l →
      l ≠ [] ∧ ∀ t, l.getLast? = some t → t.kind = Kind.semi) ∧
    (∀ s s' : LexState, 1 ≤ s.line → lexNext s = .ok (none, s') →
      lexNext s' = .ok (none, s')) := by
  constructor
  · intro input l hl
    obtain ⟨l2, hl2, hpost⟩ := tokensOf_spec input
    rw [hl] at hl2
    cases hl2
    exact ⟨hpost.nonempty_of_start rfl, hpost.ends_semi⟩
  · intro s s' hline h
    exact lexNext_none_absorbing hline h

/-- C4 witness: the theorem applied to the empty input and to a concrete
exhausted state. -/
theorem claim4_trailing_semi_witness :
    ([Token.mk Kind.semi 1] ≠ [] ∧
      ∀ t, [Token.mk Kind.semi 1].getLast? = some t → t.kind = Kind.semi) ∧
    lexNext ⟨[], 1, none, none, some Kind.semi⟩ =
      .ok (none, ⟨[], 1, none, none, some Kind.semi⟩) :=
  ⟨claim4_trailing_semi.1 "" [Token.mk Kind.semi 1] (by decide),
   claim4_trailing_semi.2 ⟨[], 1, none, none, some Kind.semi⟩
     ⟨[], 1, none, none, some Kind.semi⟩ (by decide) (by decide)⟩

/-- C5 counterexample: two terminator runs separated only by a blank emit
two consecutive Semi tokens. -/
theorem claim5_counterexample :
    tokensOf "a; ;b" = .ok [⟨Kind.word "a", 1⟩, ⟨Kind.semi, 0⟩,
      ⟨Kind.semi, 0⟩, ⟨Kind.word "b", 1⟩, ⟨Kind.semi, 1⟩] := by
  decide

/-- C5 (amended): an unbroken run of mixed terminators collapses to one Semi
(consume_line_terminators always stops with a non-terminator pending, and
the specification's own collapse example holds), and the end-of-input Semi
is suppressed after a Semi; but terminator runs separated by other
whitespace each emit a Semi of their own, so two consecutive Semi tokens can
occur. -/
theorem claim5_collapse :
    kindsOf "a;;\n;b" = .ok [Kind.word "a", Kind.semi, Kind.word "b",
      Kind.semi] ∧
    kindsOf "a;" = .ok [Kind.word "a", Kind.semi] ∧
    (∀ (s s2 : LexState) (line : Nat),
      consumeLineTerminators s = .ok (line, s2) →
      ∀ c, (chars s2).head? = some c → isLineTerminator c = false) := by
  refine ⟨by decide, by decide, ?_⟩
  intro s s2 line hc c hhead
  obtain ⟨s2', hc1, hc2, hc3, hc4, hc5⟩ :=
    consumeLTGo_spec (remaining s + 1) s.line s (by omega)
  rw [consumeLineTerminators, hc1] at hc
  cases hc
  rw [hc2] at hhead
  exact head_dropWhile_false _ _ _ hhead

/-- C5 witness: the maximal-run property applied to a concrete run. -/
theorem claim5_collapse_witness :
    isLineTerminator 'b' = false :=
  claim5_collapse.2.2 ⟨[';', 'b'], 1, none, none, none⟩
    ⟨[], 1, some 'b', none, none⟩ 1 (by decide) 'b' (by decide)

/-- C6: reading a left brace with an empty buffer consumes and discards the
maximal run of immediately following line terminators (the pending input
afterwards is its dropWhile and its head, if any, is not a terminator) and
emits LeftBrace tagged with the line the brace itself was on — the line
before any of the discarded terminators were consumed. -/
theorem claim6_leftbrace_rule :
    ∀ s s1 : LexState, s.next = none → nextChar s = (some '{', s1) →
      ∃ s2, consumeLineTerminators s1 = .ok (s.line, s2) ∧
        lexNext s = .ok (some ⟨Kind.leftBrace, s.line⟩, { s2 with last := some Kind.leftBrace }) ∧
        chars s2 = (chars s1).dropWhile isLineTerminator ∧
        (∀ c, (chars s2).head? = some c → isLineTerminator c = false) := by
  intro s s1 hsn hnc
  have hsline : s1.line = s.line := by
    rw [(nextChar_some hnc).2.2.2.2]
    simp
  obtain ⟨s2, hc1, hc2, hc3, hc4, hc5, hc6⟩ := consumeLT_spec s1
  rw [hsline] at hc1
  refine ⟨s2, hc1, ?_, hc2, ?_⟩
  · simp [lexNext, hsn, lexLoopF, hnc, hc1, emit]
  · intro c hc
    rw [hc2] at hc
    exact head_dropWhile_false _ _ _ hc

/-- C6 witness: the rule applied to a concrete input whose brace is followed
by a terminator run. -/
theorem claim6_leftbrace_rule_witness :
    ∃ s2, consumeLineTerminators ⟨[';', 'a'], 1, none, none, none⟩ =
        .ok (1, s2) ∧
      lexNext ⟨['{', ';', 'a'], 1, none, none, none⟩ =
        .ok (some ⟨Kind.leftBrace, 1⟩, { s2 with last := some Kind.leftBrace }) ∧
      chars s2 = (chars ⟨[';', 'a'], 1, none, none, none⟩).dropWhile isLineTerminator ∧
      (∀ c, (chars s2).head? = some c → isLineTerminator c = false) :=
  claim6_leftbrace_rule ⟨['{', ';', 'a'], 1, none, none, none⟩
    ⟨[';', 'a'], 1, none, none, none⟩ rfl (by decide)

/-- C7: the lexer is total — for every input text the whole token stream is
produced without any failure: the push_char assertion never fires, the line
counter is never decremented below its initial value, and every pull
terminates (the fuel bound is sufficient). -/
theorem claim7_total :
    ∀ input : String, ∃ l, tokensOf input = .ok l := by
  intro input
  obtain ⟨l, hl, _⟩ := tokensOf_spec input
  exact ⟨l, hl⟩

/-- C8: every Word token of every emitted stream has non-empty text, none of
whose characters is whitespace or a line terminator, and whose first
character is not a brace. -/
theorem claim8_word_wf :
    ∀ (input : String) (l : List Token), tokensOf input = .ok l →
      ∀ t ∈ l, ∀ w, t.kind = Kind.word w →
        w ≠ "" ∧
        (∀ c ∈ w.toList, isRustWhitespace c = false ∧
          isLineTerminator c = false) ∧
        (∀ c, w.toList.head? = some c → c ≠ '{' ∧ c ≠ '}') := by
  intro input l hl t ht w hw
  obtain ⟨l2, hl2, hpost⟩ := tokensOf_spec input
  rw [hl] at hl2
  cases hl2
  exact hpost.words t ht w hw

/-- C8 witness: the Word invariants at a concrete stream. -/
theorem claim8_word_wf_witness :
    "ab" ≠ "" ∧
    (∀ c ∈ "ab".toList, isRustWhitespace c = false ∧
      isLineTerminator c = false) ∧
    (∀ c, "ab".toList.head? = some c → c ≠ '{' ∧ c ≠ '}') :=
  claim8_word_wf "ab" [Token.mk (Kind.word "ab") 1, Token.mk Kind.semi 1]
    (by decide) (Token.mk (Kind.word "ab") 1) (by decide) "ab" rfl

/-- A stored variable (environment.rs, struct Var): a value and an
exported flag. -/
structure Var where
  value : String
  is_exported : Bool
deriving DecidableEq

/-- The environment store (environment.rs, struct Environment): a finite
name-to-variable map, modelled as a function.  OsString keys and values are
modelled as String. -/
structure Environment where
  values : String → Option Var

/-- Point update of the underlying map (the effect of HashMap insertion or
of mutating an occupied entry). -/
def envUpdate (f : String → Option Var) (name : String) (v : Var) :
    String → Option Var :=
  fun n => if n = name then some v else f n

/-- The constructor Environment::new: every inherited pair is stored with
the exported flag set.  The inherited process environment is injected as an
argument, as the specification directs for modelling env::vars_os. -/
def Environment.new (inherited : List (String × String)) : Environment :=
  ⟨inherited.foldl (fun acc p => envUpdate acc p.1 ⟨p.2, true⟩)
    (fun _ => none)⟩

/-- The method Environment::get: the raw value of a variable by name. -/
def Environment.get (env : Environment) (name : String) : Option String :=
  (env.values name).map Var.value

/-- The method Environment::assign.  The value expression is first expanded
against the current store by code outside this store (ast::Value::expand);
its outcome is passed in, and an expansion error propagates with the store
untouched.  On success an occupied entry keeps its exported flag and only
its value changes; a vacant entry is created unexported. -/
def Environment.assign (env : Environment) (name : String)
    (expanded : Except String String) : Except String Environment :=
  match expanded with
  | .error e => .error e
  | .ok value =>
    match env.values name with
    | some var => .ok ⟨envUpdate env.values name ⟨value, var.is_exported⟩⟩
    | none => .ok ⟨envUpdate env.values name ⟨value, false⟩⟩

/-- The method Environment::home: the HOME variable is required; its absence
is a fatal error (the expect panic in the Rust code). -/
def Environment.home (env : Environment) : Except String String :=
  match env.get "HOME" with
  | some v => .ok v
  | none => .error "HOME required"

/-- The method Environment::path: the PATH variable, or the empty string
when unset. -/
def Environment.path (env : Environment) : String :=
  match env.get "PATH" with
  | some v => v
  | none => ""

/-- C9: for every store state, the home accessor fails exactly when HOME is
unset and otherwise returns HOME's stored value, while the search-path
accessor never fails: it returns PATH's stored value when set and the empty
string when PATH is unset. -/
theorem claim9_accessors :
    ∀ env : Environment,
      ((∃ e, env.home = .error e) ↔ env.get "HOME" = none) ∧
      (∀ v, env.get "HOME" = some v → env.home = .ok v) ∧
      (∀ v, env.get "PATH" = some v → env.path = v) ∧
      (env.get "PATH" = none → env.path = "") := by
  intro env
  refine ⟨⟨?_, ?_⟩, ?_, ?_, ?_⟩
  · rintro ⟨e, he⟩
    cases hg : env.get "HOME" with
    | none => rfl
    | some v =>
      rw [Environment.home, hg] at he
      cases he
  · intro hg
    exact ⟨"HOME required", by rw [Environment.home, hg]⟩
  · intro v hg
    rw [Environment.home, hg]
  · intro v hg
    rw [Environment.path, hg]
  · intro hg
    rw [Environment.path, hg]

/-- C9 witness: the accessors evaluated on concrete stores. -/
theorem claim9_accessors_witness :
    (Environment.new [("HOME", "/root")]).home = .ok "/root" ∧
    (Environment.new [("PATH", "/bin")]).path = "/bin" ∧
    (Environment.new []).path = "" :=
  ⟨(claim9_accessors (Environment.new [("HOME", "/root")])).2.1 "/root"
      (by decide),
   (claim9_accessors (Environment.new [("PATH", "/bin")])).2.2.1 "/bin"
      (by decide),
   (claim9_accessors (Environment.new [])).2.2.2 (by decide)⟩

/-- C10: a successful assignment changes only the named variable: an
occupied entry keeps its exported flag and only its value changes, a name
created by assignment starts unexported, every other name is untouched —
while every variable inherited at construction starts exported. -/
theorem claim10_assign_frame :
    (∀ (env : Environment) (name v : String),
      ∃ env', env.assign name (.ok v) = .ok env' ∧
        (∀ var, env.values name = some var →
          env'.values name = some ⟨v, var.is_exported⟩) ∧
        (env.values name = none → env'.values name = some ⟨v, false⟩) ∧
        (∀ n, n ≠ name → env'.values n = env.values n)) ∧
    (∀ (inherited : List (String × String)) (n : String) (var : Var),
      (Environment.new inherited).values n = some var →
        var.is_exported = true) := by
  constructor
  · intro env name v
    cases hv : env.values name with
    | some var =>
      refine ⟨⟨envUpdate env.values name ⟨v, var.is_exported⟩⟩, ?_, ?_, ?_, ?_⟩
      · simp [Environment.assign, hv]
      · intro var2 hvar2
        cases hvar2
        simp [envUpdate]
      · intro h
        cases h
      · intro n hn
        simp [envUpdate, hn]
    | none =>
      refine ⟨⟨envUpdate env.values name ⟨v, false⟩⟩, ?_, ?_, ?_, ?_⟩
      · simp [Environment.assign, hv]
      · intro var2 hvar2
        cases hvar2
      · intro _
        simp [envUpdate]
      · intro n hn
        simp [envUpdate, hn]
  · intro inherited
    suffices h : ∀ (ps : List (String × String)) (f : String → Option Var),
        (∀ n var, f n = some var → var.is_exported = true) →
        ∀ n var,
          (ps.foldl (fun acc p => envUpdate acc p.1 ⟨p.2, true⟩) f) n =
            some var → var.is_exported = true by
      intro n var hv
      refine h inherited (fun _ => none) ?_ n var hv
      intro n2 var2 h2
      cases h2
    intro ps
    induction ps with
    | nil =>
      intro f hf n var hv
      exact hf n var hv
    | cons p ps2 ih =>
      intro f hf n var hv
      refine ih _ ?_ n var hv
      intro n2 var2 h2
      simp only [envUpdate] at h2
      by_cases he : n2 = p.1
      · rw [if_pos he] at h2
        cases h2
        rfl
      · rw [if_neg he] at h2
        exact hf n2 var2 h2

/-- C10 witness: the frame property and the constructor flag evaluated on a
concrete store. -/
theorem claim10_assign_frame_witness :
    (∃ env', (Environment.new [("A", "1")]).assign "B" (.ok "2") =
        .ok env' ∧
      (∀ var, (Environment.new [("A", "1")]).values "B" = some var →
        env'.values "B" = some ⟨"2", var.is_exported⟩) ∧
      ((Environment.new [("A", "1")]).values "B" = none →
        env'.values "B" = some ⟨"2", false⟩) ∧
      (∀ n, n ≠ "B" → env'.values n =
        (Environment.new [("A", "1")]).values n)) ∧
    (Var.mk "1" true).is_exported = true :=
  ⟨claim10_assign_frame.1 (Environment.new [("A", "1")]) "B" "2",
   claim10_assign_frame.2 [("A", "1")] "A" ⟨"1", true⟩ (by decide)⟩

end Msh
